import Mathlib

/-!
Shallow embedding of `src/hh/core.py` (util-hh): a CLI pipeline that
lists job postings page by page, fetches each posting, extracts skill
tokens (or (id, title, url) triples) and aggregates them into a
frequency counter.

Network fetches are external effects: every function that consumes a
fetch result takes the outcome (`Except`-valued) as an explicit input.
Python `collections.Counter` is embedded as an insertion-ordered
association list with unique keys (`Counter` below); Python `set` as
`Finset String`; Python `None`-able json fields as `Option`.
-/

namespace HH

/-! ## Text extraction (`_parse_text`) -/

/-- Characters matched by the regex class `[a-zA-Z]` in
`re.findall(r'[a-zA-Z]+', text)`. -/
def isAsciiAlpha (c : Char) : Bool :=
  ('a' ≤ c && c ≤ 'z') || ('A' ≤ c && c ≤ 'Z')

/-- Characters matched by the regex class `[а-яА-я]` of
`re.search(r'[а-яА-я]{5}', text)`: the ranges U+0430–U+044F and
U+0410–U+044F, whose union is U+0410–U+044F.  Note ё (U+0451) and
Ё (U+0401) are outside this class. -/
def isRegexCyr (c : Char) : Bool :=
  (0x410 ≤ c.toNat && c.toNat ≤ 0x44F)

/-- A letter of the Unicode Cyrillic block U+0400–U+04FF (the notion of
"Cyrillic letter" used by the claims; it contains ё and Ё). -/
def isCyrLetter (c : Char) : Bool :=
  (0x400 ≤ c.toNat && c.toNat ≤ 0x4FF)

/-- Whether the first five characters of the list all satisfy `p`. -/
def run5At (p : Char → Bool) : List Char → Bool
  | c1 :: c2 :: c3 :: c4 :: c5 :: _ => p c1 && p c2 && p c3 && p c4 && p c5
  | _ => false

/-- `re.search(r'[X]{5}', text)` for a one-character class `X`:
does some position of the text start a run of five class characters? -/
def hasRun5 (p : Char → Bool) : List Char → Bool
  | [] => false
  | c :: rest => run5At p (c :: rest) || hasRun5 p rest

/-- Accumulator pass of `re.findall(r'[a-zA-Z]+', text)`: `acc` holds the
current (reversed) run of ASCII letters. -/
def runsAux : List Char → List Char → List String
  | [], acc => if acc.isEmpty then [] else [String.mk acc.reverse]
  | c :: cs, acc =>
    if isAsciiAlpha c then runsAux cs (c :: acc)
    else if acc.isEmpty then runsAux cs acc
    else String.mk acc.reverse :: runsAux cs []

/-- `re.findall(r'[a-zA-Z]+', text)`: the maximal runs of ASCII letters. -/
def findAlphaRuns (text : List Char) : List String :=
  runsAux text []

/-- `str.lower` on one character, for the ASCII range (the candidate
tokens produced by `findAlphaRuns` are ASCII-only). -/
def lowerChar (c : Char) : Char :=
  if 'A' ≤ c && c ≤ 'Z' then Char.ofNat (c.toNat + 32) else c

/-- `str.lower` for ASCII strings. -/
def asciiLower (s : String) : String :=
  String.mk (s.toList.map lowerChar)

/-- The stoplist `exclude` of `_parse_text` (the source lists `'strong'`
twice; as a set this is irrelevant). -/
def excludeList : List String :=
  ["ul", "strong", "p", "li", "br", "strong",
   "a", "em", "ol", "com", "io", "quot", "quote",
   "junior", "hr", "middle", "teamlead", "senior"]

/-- `_parse_text`: if the text has a run of five `[а-яА-я]` characters,
collect the lowercased ASCII-letter runs and subtract the stoplist;
otherwise return the empty set. -/
def parse_text (text : List Char) : Finset String :=
  if hasRun5 isRegexCyr text then
    ((findAlphaRuns text).map asciiLower).toFinset \ excludeList.toFinset
  else ∅

/-- The input text of the stoplist test scenario: the markup fragment
with a six-letter Cyrillic word appended as "Cyrillic context". -/
def markupText : List Char :=
  "<p>Go and <strong>Rust</strong> engineer</p> привет".toList

/-! ## Lemmas about the Cyrillic guard -/

theorem exists_of_run5At {p : Char → Bool} {l : List Char}
    (h : run5At p l = true) : ∃ c ∈ l, p c = true := by
  match l, h with
  | c1 :: c2 :: c3 :: c4 :: c5 :: rest, h =>
    refine ⟨c1, List.mem_cons_self _ _, ?_⟩
    simp only [run5At, Bool.and_eq_true] at h
    exact h.1.1.1.1

theorem exists_of_hasRun5 {p : Char → Bool} {l : List Char}
    (h : hasRun5 p l = true) : ∃ c ∈ l, p c = true := by
  induction l with
  | nil => simp [hasRun5] at h
  | cons c rest ih =>
    simp only [hasRun5, Bool.or_eq_true] at h
    rcases h with h | h
    · exact exists_of_run5At h
    · obtain ⟨c', hc', hp⟩ := ih h
      exact ⟨c', List.mem_cons_of_mem _ hc', hp⟩

theorem run5At_mono {p q : Char → Bool} (hpq : ∀ c, p c = true → q c = true) :
    ∀ l : List Char, run5At p l = true → run5At q l = true := by
  intro l h
  match l, h with
  | c1 :: c2 :: c3 :: c4 :: c5 :: rest, h =>
    simp only [run5At, Bool.and_eq_true] at h ⊢
    exact ⟨⟨⟨⟨hpq _ h.1.1.1.1, hpq _ h.1.1.1.2⟩, hpq _ h.1.1.2⟩, hpq _ h.1.2⟩,
      hpq _ h.2⟩

theorem hasRun5_mono {p q : Char → Bool} (hpq : ∀ c, p c = true → q c = true) :
    ∀ l : List Char, hasRun5 p l = true → hasRun5 q l = true := by
  intro l h
  induction l with
  | nil => simp [hasRun5] at h
  | cons c rest ih =>
    simp only [hasRun5, Bool.or_eq_true] at h ⊢
    rcases h with h | h
    · exact Or.inl (run5At_mono hpq _ h)
    · exact Or.inr (ih h)

theorem isCyrLetter_of_isRegexCyr {c : Char} (h : isRegexCyr c = true) :
    isCyrLetter c = true := by
  simp only [isRegexCyr, Bool.and_eq_true, decide_eq_true_eq] at h
  simp only [isCyrLetter, Bool.and_eq_true, decide_eq_true_eq]
  omega

theorem parse_text_stoplist {s : String} (hs : s ∈ excludeList)
    (text : List Char) : s ∉ parse_text text := by
  unfold parse_text
  split
  · intro hmem
    exact (Finset.mem_sdiff.mp hmem).2 (List.mem_toFinset.mpr hs)
  · exact Finset.not_mem_empty s

/-! ## Claim theorems about `_parse_text` -/

/-- C2, counterexample: on the markup text with Cyrillic context,
`_parse_text` does NOT return exactly `{go, rust, engineer}` — the
English word `and` is also in the result, since `and` is not in the
stoplist. -/
theorem parse_text_markup_cex :
    "and" ∈ parse_text markupText ∧
      parse_text markupText ≠ ({"go", "rust", "engineer"} : Finset String) := by
  constructor
  · decide
  · decide

/-- C2, amended: on the markup text with Cyrillic context, `_parse_text`
returns exactly `{go, and, rust, engineer}`; no stoplist token (`p`,
`strong`, ...) is ever in a `_parse_text` result. -/
theorem parse_text_markup (s : String) (hs : s ∈ excludeList) (text : List Char) :
    s ∉ parse_text text ∧
      parse_text markupText = ({"go", "and", "rust", "engineer"} : Finset String) := by
  exact ⟨parse_text_stoplist hs text, by decide⟩

/-- C2, witness for the amended theorem at `s = "p"`, `text = markupText`. -/
theorem parse_text_markup_witness :
    "p" ∉ parse_text markupText ∧
      parse_text markupText = ({"go", "and", "rust", "engineer"} : Finset String) :=
  parse_text_markup "p" (by decide) markupText

/-- C6: a text with no run of five consecutive Cyrillic letters (the full
Cyrillic block U+0400–U+04FF) makes `_parse_text` return the empty set,
whatever ASCII words it contains. -/
theorem parse_text_empty_of_no_cyr_run (text : List Char)
    (h : hasRun5 isCyrLetter text = false) : parse_text text = ∅ := by
  have hr : hasRun5 isRegexCyr text = false := by
    cases heq : hasRun5 isRegexCyr text with
    | false => rfl
    | true =>
      have := hasRun5_mono (fun c => isCyrLetter_of_isRegexCyr) text heq
      rw [h] at this
      exact absurd this (by simp)
  unfold parse_text
  rw [hr]
  simp

/-- C6, witness: an ASCII-only English text yields the empty set. -/
theorem parse_text_empty_witness :
    hasRun5 isCyrLetter ("hello world python".toList) = false ∧
      parse_text ("hello world python".toList) = ∅ :=
  ⟨by decide, parse_text_empty_of_no_cyr_run _ (by decide)⟩

/-- C9: the guard's regex class `[а-яА-я]` excludes ё/Ё, so a text whose
only Cyrillic letters are ё or Ё yields the empty set, even when those
letters form a run of five or more. -/
theorem parse_text_empty_of_only_yo (text : List Char)
    (h : ∀ c ∈ text, isCyrLetter c = true → c = 'ё' ∨ c = 'Ё') :
    parse_text text = ∅ := by
  have hr : hasRun5 isRegexCyr text = false := by
    cases heq : hasRun5 isRegexCyr text with
    | false => rfl
    | true =>
      obtain ⟨c, hc, hp⟩ := exists_of_hasRun5 heq
      rcases h c hc (isCyrLetter_of_isRegexCyr hp) with rfl | rfl
      · exact absurd hp (by decide)
      · exact absurd hp (by decide)
  unfold parse_text
  rw [hr]
  simp

/-- C9, witness: "ёёёёё go rust" has a run of five Cyrillic letters, yet
`_parse_text` returns the empty set. -/
theorem parse_text_only_yo_witness :
    hasRun5 isCyrLetter ("ёёёёё go rust".toList) = true ∧
      parse_text ("ёёёёё go rust".toList) = ∅ :=
  ⟨by decide, parse_text_empty_of_only_yo _ (by decide)⟩

/-! ## Counter (`collections.Counter`) -/

/-- Python `collections.Counter` embedded as its insertion-ordered list of
(key, count) entries; dict semantics keeps the keys unique (`keysNodup`). -/
abbrev Counter := List (String × Nat)

/-- The dict invariant: the keys of a counter are pairwise distinct. -/
abbrev keysNodup (c : Counter) : Prop := (c.map Prod.fst).Nodup

/-- The count a counter stores for token `t` (0 when absent): the sum of
the values of the entries whose key is `t`. -/
def countOf (c : Counter) (t : String) : Nat :=
  (c.map fun p => if p.1 = t then p.2 else 0).sum

/-- One step of `Counter.update`: `self[k] = self.get(k, 0) + v`.  An
existing key keeps its position; a fresh key is appended (dict insertion
order). -/
def bumpEntry (acc : Counter) (p : String × Nat) : Counter :=
  if acc.any fun q => q.1 == p.1 then
    acc.map fun q => if q.1 == p.1 then (q.1, q.2 + p.2) else q
  else acc ++ [p]

/-- `Counter(iterable)`: count occurrences, keys in first-seen order. -/
def counterOfList (ts : List String) : Counter :=
  ts.foldl (fun c t => bumpEntry c (t, 1)) []

/-- `self.update(other)` for two counters: fold `bumpEntry` over the
entries of `other`. -/
def counterUpdate (c other : Counter) : Counter :=
  other.foldl bumpEntry c

/-- The merge loop of `_parse_pages` restricted to successful page
results: update an initially empty counter with each page counter. -/
def mergeAll (l : List Counter) : Counter :=
  l.foldl counterUpdate []

theorem countOf_nil (t : String) : countOf [] t = 0 := rfl

theorem countOf_cons (p : String × Nat) (c : Counter) (t : String) :
    countOf (p :: c) t = (if p.1 = t then p.2 else 0) + countOf c t := by
  simp [countOf]

theorem countOf_append (a b : Counter) (t : String) :
    countOf (a ++ b) t = countOf a t + countOf b t := by
  simp [countOf]

theorem map_bump_of_not_mem (rest : Counter) (k : String) (v : Nat)
    (h : k ∉ rest.map Prod.fst) :
    (rest.map fun q => if q.1 == k then (q.1, q.2 + v) else q) = rest := by
  induction rest with
  | nil => rfl
  | cons q l ih =>
    simp only [List.map_cons, List.mem_cons, not_or] at h
    have hq : (q.1 == k) = false := by
      rw [beq_eq_false_iff_ne]
      exact fun hk => h.1 hk.symm
    simp only [List.map_cons, hq, Bool.false_eq_true, if_false]
    rw [ih h.2]

theorem countOf_bump_map (acc : Counter) (k : String) (v : Nat) (t : String)
    (hnd : keysNodup acc) (hmem : k ∈ acc.map Prod.fst) :
    countOf (acc.map fun q => if q.1 == k then (q.1, q.2 + v) else q) t
      = countOf acc t + (if k = t then v else 0) := by
  induction acc with
  | nil => simp at hmem
  | cons q rest ih =>
    simp only [keysNodup, List.map_cons, List.nodup_cons] at hnd
    by_cases hqk : q.1 = k
    · have hb : (q.1 == k) = true := beq_iff_eq.mpr hqk
      simp only [List.map_cons, hb, if_true]
      rw [map_bump_of_not_mem rest k v (hqk ▸ hnd.1)]
      rw [countOf_cons, countOf_cons]
      subst hqk
      by_cases hqt : q.1 = t <;> simp [hqt] <;> omega
    · have hb : (q.1 == k) = false := beq_eq_false_iff_ne.mpr hqk
      have hmem' : k ∈ rest.map Prod.fst := by
        rcases List.mem_cons.mp hmem with h | h
        · exact absurd h.symm hqk
        · exact h
      simp only [List.map_cons, hb, Bool.false_eq_true, if_false]
      rw [countOf_cons, countOf_cons, ih hnd.2 hmem']
      omega

theorem countOf_bumpEntry (acc : Counter) (p : String × Nat) (t : String)
    (hnd : keysNodup acc) :
    countOf (bumpEntry acc p) t = countOf acc t + (if p.1 = t then p.2 else 0) := by
  unfold bumpEntry
  split
  next h =>
    apply countOf_bump_map acc p.1 p.2 t hnd
    simp only [List.any_eq_true, beq_iff_eq] at h
    obtain ⟨q, hq, hq1⟩ := h
    exact List.mem_map.mpr ⟨q, hq, hq1⟩
  next h =>
    rw [countOf_append, countOf_cons, countOf_nil]
    omega

theorem keysNodup_bumpEntry (acc : Counter) (p : String × Nat)
    (hnd : keysNodup acc) : keysNodup (bumpEntry acc p) := by
  unfold bumpEntry
  split
  next h =>
    have hfun : ∀ q : String × Nat,
        (if q.1 == p.1 then (q.1, q.2 + p.2) else q).1 = q.1 := by
      intro q; split <;> rfl
    unfold keysNodup
    rw [List.map_map]
    have : (Prod.fst ∘ fun q : String × Nat =>
        if q.1 == p.1 then (q.1, q.2 + p.2) else q) = Prod.fst := funext hfun
    rw [this]
    exact hnd
  next h =>
    have hnot : p.1 ∉ acc.map Prod.fst := by
      intro hmem
      obtain ⟨q, hq, hq1⟩ := List.mem_map.mp hmem
      have : acc.any (fun q => q.1 == p.1) = true :=
        List.any_eq_true.mpr ⟨q, hq, beq_iff_eq.mpr hq1⟩
      exact absurd this (by simpa using h)
    unfold keysNodup
    rw [List.map_append, List.nodup_append]
    refine ⟨hnd, List.nodup_singleton _, ?_⟩
    intro x hx hx'
    simp only [List.map_cons, List.map_nil, List.mem_singleton] at hx'
    exact hnot (hx' ▸ hx)

theorem countOf_counterUpdate (c other : Counter) (t : String)
    (hnd : keysNodup c) :
    countOf (counterUpdate c other) t = countOf c t + countOf other t := by
  induction other generalizing c with
  | nil => simp [counterUpdate, countOf_nil]
  | cons p rest ih =>
    unfold counterUpdate at ih ⊢
    simp only [List.foldl_cons]
    rw [ih (bumpEntry c p) (keysNodup_bumpEntry c p hnd),
      countOf_bumpEntry c p t hnd, countOf_cons]
    omega

theorem keysNodup_counterUpdate (c other : Counter) (hnd : keysNodup c) :
    keysNodup (counterUpdate c other) := by
  induction other generalizing c with
  | nil => exact hnd
  | cons p rest ih => exact ih _ (keysNodup_bumpEntry c p hnd)

theorem keysNodup_nil : keysNodup [] := List.nodup_nil

theorem countOf_counterOfList_aux (ts : List String) (c : Counter) (t : String)
    (hnd : keysNodup c) :
    countOf (ts.foldl (fun c t => bumpEntry c (t, 1)) c) t
      = countOf c t + ts.count t := by
  induction ts generalizing c with
  | nil => simp
  | cons x rest ih =>
    simp only [List.foldl_cons]
    rw [ih _ (keysNodup_bumpEntry _ _ hnd), countOf_bumpEntry _ _ _ hnd]
    simp only [List.count_cons]
    by_cases hx : x = t <;> simp [hx] <;> omega

theorem countOf_counterOfList (ts : List String) (t : String) :
    countOf (counterOfList ts) t = ts.count t := by
  have h := countOf_counterOfList_aux ts [] t keysNodup_nil
  simpa [counterOfList, countOf_nil] using h

theorem countOf_mergeAll_aux (l : List Counter) (init : Counter) (t : String)
    (hnd : keysNodup init) :
    countOf (l.foldl counterUpdate init) t
      = countOf init t + (l.map fun c => countOf c t).sum := by
  induction l generalizing init with
  | nil => simp
  | cons c rest ih =>
    simp only [List.foldl_cons, List.map_cons, List.sum_cons]
    rw [ih _ (keysNodup_counterUpdate _ _ hnd), countOf_counterUpdate _ _ _ hnd]
    omega

theorem countOf_mergeAll (l : List Counter) (t : String) :
    countOf (mergeAll l) t = (l.map fun c => countOf c t).sum := by
  have h := countOf_mergeAll_aux l [] t keysNodup_nil
  simpa [mergeAll, countOf_nil] using h

/-! ## Records, modes and per-record extraction -/

/-- The run-scoped flags of `ARGS` that the extraction code reads. -/
structure ParseArgs where
  links : Bool
  desc : Bool
  limit : Option Int

/-- The fields of the vacancy detail payload that the code reads.
`key_skills` holds the `name` of each `key_skills` entry; the three
json-absent-able fields are `Option` (Python `dict.get`). -/
structure VacancyJson where
  id : Option String
  name : Option String
  alternate_url : Option String
  key_skills : List String
  description : Option String

/-- `_get_title`: `(json.get('id'), json.get('name'),
json.get('alternate_url', '...'))` as a one-element list.  Only the url
has the `'...'` default; absent `id` and `name` stay `None`. -/
def get_title (j : VacancyJson) : List (Option String × Option String × String) :=
  [(j.id, j.name, j.alternate_url.getD "...")]

/-- `_parse_skills`: the lowercased `key_skills` names as a set, unioned
with the description mining output when `--desc` is on.  The source
returns `list(key_skills)`; the set is kept and converted with `toList`
where the list is consumed. -/
def parse_skills (args : ParseArgs) (j : VacancyJson) : Finset String :=
  let key_skills := (j.key_skills.map asciiLower).toFinset
  if args.desc then key_skills ∪ parse_text (j.description.getD "").toList
  else key_skills

/-! ## Page processing and the orchestrator -/

/-- One step of `[fs.result() for fs in compl]`: `Future.result()`
re-raises the task's stored exception, so an error on either side makes
the whole comprehension raise. -/
def consSkill (r : Except String (List String))
    (acc : Except String (List (List String))) :
    Except String (List (List String)) :=
  match r, acc with
  | Except.error e, _ => Except.error e
  | Except.ok _, Except.error e => Except.error e
  | Except.ok v, Except.ok vs => Except.ok (v :: vs)

/-- `_get_skills`: submit one task per id, wait for `ALL_COMPLETED`, then
build `[fs.result() for fs in compl]`; a single failed item makes the
whole call raise.  The per-item fetch outcomes are taken as explicit
inputs. -/
def get_skills : List (Except String (List String)) →
    Except String (List (List String))
  | [] => Except.ok []
  | r :: rest => consSkill r (get_skills rest)

/-- `_parse_page` for a page whose listing succeeded, given the per-item
outcomes: `Counter(sum(skills, []))`. -/
def parse_page (results : List (Except String (List String))) :
    Except String Counter :=
  match get_skills results with
  | Except.error e => Except.error e
  | Except.ok skills => Except.ok (counterOfList skills.flatten)

/-- `_parse_pages`: iterate over the completed page tasks; a failed page
is printed and skipped, a successful one is merged via `stat.update`.
Only the counter `stat` is returned. -/
def parse_pages (pages : List (Except String Counter)) : Counter :=
  pages.foldl
    (fun stat r =>
      match r with
      | Except.error _ => stat
      | Except.ok c => counterUpdate stat c)
    []

/-- Python `list(s)` on the embedded set: a duplicate-free list of the
set's elements (the order a CPython set iterates in is arbitrary; the
counters built downstream do not depend on it). -/
def setToList (s : Finset String) : List String :=
  s.sort (· ≤ ·)

/-- A page's counter over its postings, as `_parse_page` computes it when
every item fetch succeeds: `Counter` of the concatenated per-posting
skill lists. -/
def pageCounter (args : ParseArgs) (postings : List VacancyJson) : Counter :=
  counterOfList (postings.map fun j => setToList (parse_skills args j)).flatten

theorem get_skills_error_of_mem (results : List (Except String (List String)))
    (e : String) (h : Except.error e ∈ results) :
    ∃ e', get_skills results = Except.error e' := by
  induction results with
  | nil => simp at h
  | cons r rest ih =>
    rcases List.mem_cons.mp h with h | h
    · exact ⟨e, by rw [← h]; simp [get_skills, consSkill]⟩
    · obtain ⟨e', he'⟩ := ih h
      cases r with
      | error e2 => exact ⟨e2, by simp [get_skills, consSkill]⟩
      | ok v => exact ⟨e', by simp [get_skills, consSkill, he']⟩

theorem get_skills_all_ok (lists : List (List String)) :
    get_skills (lists.map Except.ok) = Except.ok lists := by
  induction lists with
  | nil => rfl
  | cons l rest ih => simp [get_skills, consSkill, ih]

theorem count_setToList (s : Finset String) (t : String) :
    (setToList s).count t = if t ∈ s then 1 else 0 := by
  unfold setToList
  by_cases hmem : t ∈ s
  · rw [if_pos hmem, List.count_eq_one_of_mem (Finset.sort_nodup _ _)
      ((Finset.mem_sort _).mpr hmem)]
  · rw [if_neg hmem, List.count_eq_zero_of_not_mem
      (fun hc => hmem ((Finset.mem_sort _).mp hc))]

theorem countOf_pageCounter_cons (args : ParseArgs) (j : VacancyJson)
    (rest : List VacancyJson) (t : String) :
    countOf (pageCounter args (j :: rest)) t
      = (if t ∈ parse_skills args j then 1 else 0)
        + countOf (pageCounter args rest) t := by
  rw [pageCounter, pageCounter, List.map_cons, List.flatten_cons,
    countOf_counterOfList, countOf_counterOfList, List.count_append,
    count_setToList]

theorem parse_pages_eq_mergeAll_aux (pages : List (Except String Counter))
    (init : Counter) :
    pages.foldl
        (fun stat r =>
          match r with
          | Except.error _ => stat
          | Except.ok c => counterUpdate stat c)
        init
      = (pages.filterMap fun r => r.toOption).foldl counterUpdate init := by
  induction pages generalizing init with
  | nil => rfl
  | cons r rest ih => cases r <;> simp [Except.toOption, ih]

/-! ## Claim theorems about failure handling and merging -/

/-- C1, counterexample: on a page of two items where the second item
fetch fails, `_parse_page` raises the item's error instead of returning
the counter built from the one successful item. -/
theorem parse_page_item_failure_cex :
    parse_page [Except.ok ["python"], Except.error "boom"] = Except.error "boom" ∧
      parse_page [Except.ok ["python"], Except.error "boom"]
        ≠ Except.ok (counterOfList ["python"]) := by
  refine ⟨rfl, ?_⟩
  intro h
  rw [show parse_page [Except.ok ["python"], Except.error "boom"]
      = Except.error "boom" from rfl] at h
  exact Except.noConfusion h

/-- C1, amended: one failed item among the items of a page makes
`_get_skills` re-raise, so the whole page fails and contributes nothing;
the error is caught in `_parse_pages`, hence the run is not aborted and
the remaining pages' aggregate is returned. -/
theorem parse_page_item_failure (pre post : List (Except String (List String)))
    (e : String) (others : List (Except String Counter)) :
    (∃ e', parse_page (pre ++ Except.error e :: post) = Except.error e') ∧
      parse_pages (parse_page (pre ++ Except.error e :: post) :: others)
        = parse_pages others := by
  obtain ⟨e', he'⟩ := get_skills_error_of_mem (pre ++ Except.error e :: post) e
    (by simp)
  have hpage : parse_page (pre ++ Except.error e :: post) = Except.error e' := by
    simp [parse_page, he']
  refine ⟨⟨e', hpage⟩, ?_⟩
  rw [hpage]
  rfl

/-- C3, counterexample: two runs whose successful pages agree but whose
failed-page counts differ (0 versus 1) return the very same value, so the
value returned by `_parse_pages` carries no count of failed pages. -/
theorem parse_pages_no_failed_count_cex :
    parse_pages [Except.ok [("a", 1)]]
      = parse_pages [Except.ok [("a", 1)], Except.error "boom"] := rfl

/-- C3, amended: once all page tasks have completed, `_parse_pages`
returns only the merged counter of the successful pages; failed pages are
printed and skipped, and no failed-page count is part of the return
value. -/
theorem parse_pages_returns_merge_only (pages : List (Except String Counter))
    (e : String) :
    parse_pages pages = mergeAll (pages.filterMap fun r => r.toOption) ∧
      parse_pages (pages ++ [Except.error e]) = parse_pages pages := by
  constructor
  · exact parse_pages_eq_mergeAll_aux pages []
  · unfold parse_pages
    rw [List.foldl_append]
    rfl

/-- C4: the merge step on counts — `Counter.update` — is commutative and
associative as a function on per-token counts, and merging any
permutation of a list of page counters yields the same counts. -/
theorem counterUpdate_comm_assoc (a b c : Counter)
    (ha : keysNodup a) (hb : keysNodup b)
    (l1 l2 : List Counter) (hp : l1.Perm l2) (t : String) :
    countOf (counterUpdate a b) t = countOf (counterUpdate b a) t ∧
      countOf (counterUpdate (counterUpdate a b) c) t
        = countOf (counterUpdate a (counterUpdate b c)) t ∧
      countOf (mergeAll l1) t = countOf (mergeAll l2) t := by
  refine ⟨?_, ?_, ?_⟩
  · rw [countOf_counterUpdate _ _ _ ha, countOf_counterUpdate _ _ _ hb]
    omega
  · rw [countOf_counterUpdate _ _ _ (keysNodup_counterUpdate _ _ ha),
      countOf_counterUpdate _ _ _ ha, countOf_counterUpdate _ _ _ ha,
      countOf_counterUpdate _ _ _ hb]
    omega
  · rw [countOf_mergeAll, countOf_mergeAll]
    exact List.Perm.sum_eq (hp.map _)

/-- C4, witness at concrete counters and a concrete two-element
permutation. -/
theorem counterUpdate_comm_assoc_witness :
    countOf (counterUpdate [("x", 1)] [("y", 2), ("x", 3)]) "x"
        = countOf (counterUpdate [("y", 2), ("x", 3)] [("x", 1)]) "x" ∧
      countOf (counterUpdate (counterUpdate [("x", 1)] [("y", 2), ("x", 3)])
          [("z", 4)]) "x"
        = countOf (counterUpdate [("x", 1)]
            (counterUpdate [("y", 2), ("x", 3)] [("z", 4)])) "x" ∧
      countOf (mergeAll [[("x", 1)], [("y", 2)]]) "x"
        = countOf (mergeAll [[("y", 2)], [("x", 1)]]) "x" :=
  counterUpdate_comm_assoc [("x", 1)] [("y", 2), ("x", 3)] [("z", 4)]
    (by decide) (by decide)
    [[("x", 1)], [("y", 2)]] [[("y", 2)], [("x", 1)]] (by decide) "x"

/-- C5: per posting, each distinct token contributes exactly one
increment when present and none otherwise (set semantics), so a posting
whose description repeats a token still adds 1; the concrete conjunct
evaluates a posting whose description holds `python` twice.  The last
conjunct ties `pageCounter` to `_parse_page` on all-successful fetches. -/
theorem pageCounter_set_semantics (args : ParseArgs) (j : VacancyJson)
    (rest : List VacancyJson) (t : String) :
    countOf (pageCounter args (j :: rest)) t
        = (if t ∈ parse_skills args j then 1 else 0)
          + countOf (pageCounter args rest) t ∧
      countOf (pageCounter ⟨false, true, none⟩
          [⟨some "1", some "dev", none, [],
            some "привет python и python"⟩]) "python" = 1 ∧
      parse_page ((j :: rest).map fun j' =>
          Except.ok (setToList (parse_skills args j')))
        = Except.ok (pageCounter args (j :: rest)) := by
  refine ⟨countOf_pageCounter_cons args j rest t, ?_, ?_⟩
  · rw [countOf_pageCounter_cons, if_pos (by decide)]
    rfl
  · have hmap : ((j :: rest).map fun j' =>
          (Except.ok (setToList (parse_skills args j')) :
            Except String (List String)))
        = ((j :: rest).map fun j' => setToList (parse_skills args j')).map
            Except.ok := by
      rw [List.map_map]
      rfl
    rw [hmap, parse_page, get_skills_all_ok, pageCounter]

/-! ## Ranking (`Counter.most_common`) and the output limit of `main` -/

/-- Insert an entry into a descending-sorted list, after every entry of
count greater than or equal to its own (the placement a stable sort by
descending count gives to a later element). -/
def insertDesc (x : String × Nat) : List (String × Nat) → List (String × Nat)
  | [] => [x]
  | y :: ys => if x.2 ≤ y.2 then y :: insertDesc x ys else x :: y :: ys

/-- The stable descending sort on counts underlying
`Counter.most_common`: `sorted(self.items(), key=itemgetter(1),
reverse=True)`, with ties kept in the iteration (insertion) order of the
counter. -/
def sortDesc (c : Counter) : List (String × Nat) :=
  c.foldl (fun acc x => insertDesc x acc) []

/-- `Counter.most_common(n)`: the first `n` entries of the stable
descending sort. -/
def mostCommon (c : Counter) (n : Nat) : List (String × Nat) :=
  (sortDesc c).take n

/-- The result-selection tail of `main`:
`limit = ARGS.limit if ARGS.limit else len(counter)` followed by
`counter.most_common(limit)`.  `ARGS.limit` is `None` or an `int`, and
both `None` and `0` are falsy, so both fall back to `len(counter)`. -/
def rawResult (limit : Option Int) (c : Counter) : List (String × Nat) :=
  let eff : Int :=
    match limit with
    | none => (c.length : Int)
    | some v => if v = 0 then (c.length : Int) else v
  mostCommon c eff.toNat

theorem length_insertDesc (x : String × Nat) (l : List (String × Nat)) :
    (insertDesc x l).length = l.length + 1 := by
  induction l with
  | nil => rfl
  | cons y ys ih =>
    rw [insertDesc]
    split
    · simp [ih]
    · simp

theorem length_sortDesc_aux (c : Counter) (acc : List (String × Nat)) :
    (c.foldl (fun acc x => insertDesc x acc) acc).length
      = acc.length + c.length := by
  induction c generalizing acc with
  | nil => simp
  | cons p rest ih =>
    simp only [List.foldl_cons, List.length_cons]
    rw [ih, length_insertDesc]
    omega

theorem length_sortDesc (c : Counter) : (sortDesc c).length = c.length := by
  have h := length_sortDesc_aux c []
  simpa [sortDesc] using h

/-- C7: the ranking is a stable descending sort on count, ties broken by
insertion order: on the counter with entries a:3, b:3, c:5 inserted in
that order, `most_common` returns c, then a, then b. -/
theorem mostCommon_stable :
    mostCommon [("a", 3), ("b", 3), ("c", 5)] 3
      = [("c", 5), ("a", 3), ("b", 3)] := by decide

/-- C10: a falsy `ARGS.limit` — `0` as well as absent (`None`) — makes
`main` fall back to `len(counter)`, so the whole table is output rather
than zero entries. -/
theorem rawResult_falsy_limit (c : Counter) :
    rawResult (some 0) c = sortDesc c ∧ rawResult none c = sortDesc c := by
  constructor <;>
  · show mostCommon c ((c.length : Int)).toNat = sortDesc c
    rw [Int.toNat_natCast, mostCommon, ← length_sortDesc, List.take_length]

/-! ## Link mode (`_get_title`) -/

/-- A vacancy record carrying none of the optional fields. -/
def emptyRecord : VacancyJson :=
  ⟨none, none, none, [], none⟩

/-- C8, counterexample: on a record missing all optional fields,
`_get_title` keeps `None` (here `none`) in the id and title slots — they
are not replaced by a placeholder value; only the url slot receives the
placeholder `"..."`. -/
theorem get_title_missing_cex :
    get_title emptyRecord
        = [((none : Option String), (none : Option String), "...")] ∧
      ((get_title emptyRecord).head?.map fun p => p.1.isSome) = some false ∧
      ((get_title emptyRecord).head?.map fun p => p.2.1.isSome) = some false :=
  ⟨rfl, rfl, rfl⟩

/-- C8, amended: `_get_title` never fails and always returns a singleton;
an absent `alternate_url` is replaced by the placeholder `"..."` and a
present one is passed through, while absent `id` and `name` are passed
through as `None`. -/
theorem get_title_total (j : VacancyJson) :
    (get_title j).length = 1 ∧
      (j.alternate_url = none → get_title j = [(j.id, j.name, "...")]) ∧
      ∀ u, j.alternate_url = some u → get_title j = [(j.id, j.name, u)] := by
  refine ⟨rfl, ?_, ?_⟩
  · intro h
    simp [get_title, h]
  · intro u h
    simp [get_title, h]

/-- C8, witness for the amended theorem: one record with the url absent,
one with it present. -/
theorem get_title_total_witness :
    get_title ⟨some "42", some "dev", none, [], none⟩
        = [(some "42", some "dev", "...")] ∧
      get_title ⟨none, none, some "http://x", [], none⟩
        = [(none, none, "http://x")] :=
  ⟨(get_title_total ⟨some "42", some "dev", none, [], none⟩).2.1 rfl,
    (get_title_total ⟨none, none, some "http://x", [], none⟩).2.2 "http://x" rfl⟩

end HH
